import Mathlib

/-!
Verification of the Exomizer-style decruncher (the fixed-table variant of the
repository: MSB-first bit reader, static 145-entry command table, 4-level
command code tree, gamma-coded copies with single-slot offset reuse).

The byte source is only ever consumed through the bit reader, which refills
its 8-bit buffer exactly when it is empty; the reader therefore sees the
concatenation of the MSB-first bit expansions of the input bytes, and a read
failure happens exactly when that bit list is exhausted.  The embedding keeps
the remaining bit list as the reader state.  Machine integers are modelled as
Nat with an explicit mod where 16-bit wraparound matters (the decoder's
arithmetic is otherwise far below the 32-bit int range of the target).
-/

/-- MSB-first bit expansion of one input byte (the reader extracts bit 0x80
and shifts left, eight times per byte). -/
def byteBits (b : Nat) : List Bool :=
  [b.testBit 7, b.testBit 6, b.testBit 5, b.testBit 4,
   b.testBit 3, b.testBit 2, b.testBit 1, b.testBit 0]

/-- The whole input stream as seen by the bit reader. -/
def bytesToBits (bs : List Nat) : List Bool :=
  bs.flatMap byteBits

/-- One bit, MSB-first; fails exactly when the stream is exhausted
(source: get_one_bit). -/
def get_one_bit : List Bool → Option (Bool × List Bool)
  | [] => none
  | b :: rest => some (b, rest)

/-- Loop body of get_n_bits: value = (value << 1) | bit, n times.  A shifted
value is even, so the or is an addition of the bit. -/
def get_n_bits_go : Nat → Nat → List Bool → Option (Nat × List Bool)
  | 0, acc, s => some (acc, s)
  | n + 1, acc, s =>
    match get_one_bit s with
    | none => none
    | some (b, s1) => get_n_bits_go n (2 * acc + b.toNat) s1

/-- n bits MSB-first; 0 bits give 0 without consuming input, more than 16
bits are rejected (source: get_n_bits). -/
def get_n_bits (n : Nat) (s : List Bool) : Option (Nat × List Bool) :=
  if n = 0 then some (0, s)
  else if n > 16 then none
  else get_n_bits_go n 0 s

/-- Unary scan of the gamma code: count zero bits until the first one bit.
Fails on exhaustion or when the count would exceed 16; the returned list is
the reader state at that point (on exhaustion it is empty). -/
def gamma_scan : List Bool → Nat → Option Nat × List Bool
  | [], _ => (none, [])
  | b :: s, k =>
    if b then (some k, s)
    else if k + 1 > 16 then (none, s)
    else gamma_scan s (k + 1)

/-- Gamma decoder (source: get_gamma_coded_value).  0 is the in-band error
sentinel, used both for exhaustion and for the unary safety bound.  The
return type is uint16_t, hence the mod 65536; a payload reading 0xFFFF is
caught by the (uint16_t)-1 error test of the source and also yields 0. -/
def get_gamma_coded_value (s : List Bool) : Nat × List Bool :=
  match gamma_scan s 0 with
  | (none, s1) => (0, s1)
  | (some k, s1) =>
    if k = 0 then (1, s1)
    else
      match get_n_bits k s1 with
      | none => (0, [])
      | some (v, s2) =>
        if v = 65535 then (0, s2)
        else (((1 <<< k) ||| v) % 65536, s2)

/-- The static 145-entry command table (source: init_decrunch_table).
Four blocks of 32 literal entries (i << 2 | 0) followed by two length-2 and
two length-3 sequence entries with a 10-bit offset, then the trailing gamma
entry (0 << 2 | 3). -/
def exod_decrunch_table_data : List Nat :=
  (List.range 4).flatMap (fun _ =>
    (List.range 32).map (fun i => (i <<< 2) ||| 0) ++
    [(10 <<< 2) ||| 1, (10 <<< 2) ||| 1, (10 <<< 2) ||| 2, (10 <<< 2) ||| 2]) ++
  [(0 <<< 2) ||| 3]

def COMMAND_EOS_MARKER : Nat := 0xFF

/-- Command selection along the fixed code tree (source:
get_coded_command_val).  Any read failure yields the 0xFF marker; since no
table entry is 0xFF, the marker is equivalent to stream exhaustion.  On a
read failure the underlying byte stream is exhausted, so the reader state is
the empty list. -/
def get_coded_command_val (s : List Bool) : Nat × List Bool :=
  match get_one_bit s with
  | none => (COMMAND_EOS_MARKER, [])
  | some (false, s1) =>
    match get_n_bits 5 s1 with
    | none => (COMMAND_EOS_MARKER, [])
    | some (i, s2) => (exod_decrunch_table_data.getD (108 + i) 0, s2)
  | some (true, s1) =>
    match get_one_bit s1 with
    | none => (COMMAND_EOS_MARKER, [])
    | some (false, s2) =>
      match get_n_bits 4 s2 with
      | none => (COMMAND_EOS_MARKER, [])
      | some (i, s3) => (exod_decrunch_table_data.getD (36 + i) 0, s3)
    | some (true, s2) =>
      match get_one_bit s2 with
      | none => (COMMAND_EOS_MARKER, [])
      | some (false, s3) =>
        match get_n_bits 3 s3 with
        | none => (COMMAND_EOS_MARKER, [])
        | some (i, s4) => (exod_decrunch_table_data.getD (72 + i) 0, s4)
      | some (true, s3) =>
        match get_one_bit s3 with
        | none => (COMMAND_EOS_MARKER, [])
        | some (false, s4) =>
          match get_n_bits 2 s4 with
          | none => (COMMAND_EOS_MARKER, [])
          | some (i, s5) => (exod_decrunch_table_data.getD (0 + i) 0, s5)
        | some (true, s4) => (exod_decrunch_table_data.getD 144 0, s4)

/-- Decoder state threaded through one exod_decrunch invocation: remaining
input bits, output written so far (its length is decompressed_data_index),
and last_offset_val. -/
structure DState where
  bits : List Bool
  out : List Nat
  lastOffset : Nat
deriving DecidableEq, Repr

/-- The distinct early exits of the main loop, one per return/break site of
the source. -/
inductive StopKind where
  | eosBreak      -- command selection returned the 0xFF marker: break
  | literalFail   -- get_n_bits(8) failed inside a literal run: return
  | shortRawFail  -- the 10-bit offset read of a short copy failed: return
  | gammaLenFail  -- gamma length came back as the 0 sentinel: return
  | reuseBitFail  -- the reuse bit could not be read: return
  | gammaOffFail  -- gamma offset came back as the 0 sentinel: return
  | invalidOffset -- offset == 0 or offset > output index: error return
deriving DecidableEq, Repr

inductive Status where
  | stopped : StopKind → Status
  | capacityFull : Status
  | fuelOut : Status
deriving DecidableEq, Repr

/-- Literal run: copy n stream bytes (8-bit reads through the bit cursor) to
the output, stopping early at the capacity; a failed read aborts the whole
decode with the bytes already appended kept (source: the type == 0 branch).
The Bool is false iff the run hit a read failure. -/
def literal_copy (cap : Nat) : Nat → DState → Bool × DState
  | 0, s => (true, s)
  | n + 1, s =>
    if cap ≤ s.out.length then (true, s)
    else
      match get_n_bits 8 s.bits with
      | none => (false, { s with bits := [] })
      | some (b, bits1) =>
        literal_copy cap n { s with bits := bits1, out := s.out ++ [b] }

/-- Back-reference copy: n single bytes, each read back off bytes from the
write position of that moment, stopping early at the capacity (source: the
copy loop of the sequence branch). -/
def sequence_copy (cap off : Nat) : Nat → DState → DState
  | 0, s => s
  | n + 1, s =>
    if cap ≤ s.out.length then s
    else
      sequence_copy cap off n
        { s with out := s.out ++ [s.out.getD (s.out.length - off) 0] }

/-- Validity check and execution of a sequence instruction (source: the
is_sequence block, including the printed invalid-offset error return). -/
def apply_sequence (cap len off : Nat) (s : DState) :
    (StopKind × DState) ⊕ DState :=
  if off = 0 ∨ s.out.length < off then Sum.inl (StopKind.invalidOffset, s)
  else Sum.inr (sequence_copy cap off len s)

/-- One iteration of the main while loop of exod_decrunch: select a command,
dispatch on its packed type bits, execute it.  Sum.inr is the continue case,
Sum.inl an early exit. -/
def decrunch_step (cap : Nat) (s : DState) : (StopKind × DState) ⊕ DState :=
  match get_coded_command_val s.bits with
  | (command_byte, bits1) =>
    if command_byte = COMMAND_EOS_MARKER then
      Sum.inl (StopKind.eosBreak, { s with bits := bits1 })
    else
      let type := command_byte % 4
      let val_from_table := command_byte / 4
      if type = 0 then
        match literal_copy cap (val_from_table + 1) { s with bits := bits1 } with
        | (true, s1) => Sum.inr s1
        | (false, s1) => Sum.inl (StopKind.literalFail, s1)
      else if type = 1 then
        match get_n_bits val_from_table bits1 with
        | none => Sum.inl (StopKind.shortRawFail, { s with bits := [] })
        | some (raw, bits2) => apply_sequence cap 2 (raw + 1) { s with bits := bits2 }
      else if type = 2 then
        match get_n_bits val_from_table bits1 with
        | none => Sum.inl (StopKind.shortRawFail, { s with bits := [] })
        | some (raw, bits2) => apply_sequence cap 3 (raw + 1) { s with bits := bits2 }
      else
        match get_gamma_coded_value bits1 with
        | (glen, bits2) =>
          if glen = 0 then Sum.inl (StopKind.gammaLenFail, { s with bits := bits2 })
          else
            let len := (glen + 3) % 65536
            match get_one_bit bits2 with
            | none => Sum.inl (StopKind.reuseBitFail, { s with bits := [] })
            | some (true, bits3) =>
              apply_sequence cap len s.lastOffset { s with bits := bits3 }
            | some (false, bits3) =>
              match get_gamma_coded_value bits3 with
              | (goff, bits4) =>
                if goff = 0 then Sum.inl (StopKind.gammaOffFail, { s with bits := bits4 })
                else apply_sequence cap len goff
                  { bits := bits4, out := s.out, lastOffset := goff }

/-- The main loop, fuel-indexed.  The fuel is an artifact of the embedding:
decrunch never actually runs out of it (the termination theorem below),
because every continuing iteration consumes input bits. -/
def decrunch_loop (cap : Nat) : Nat → DState → Status × DState
  | 0, s => (Status.fuelOut, s)
  | fuel + 1, s =>
    if s.out.length < cap then
      match decrunch_step cap s with
      | Sum.inl r => (Status.stopped r.1, r.2)
      | Sum.inr s1 => decrunch_loop cap fuel s1
    else (Status.capacityFull, s)

/-- Entry point (source: exod_decrunch).  All decoder state is re-created
from scratch; the result is the output byte list together with the exit that
ended the loop. -/
def exod_decrunch (in_data : List Nat) (out_max_len : Nat) : Status × List Nat :=
  let r := decrunch_loop out_max_len (8 * in_data.length + 1)
    { bits := bytesToBits in_data, out := [], lastOffset := 0 }
  (r.1, r.2.out)

/-- The demonstration vector of the source (decodes to "Hello"). -/
def demo_crunched_data : List Nat :=
  [0x11, 0x21, 0x95, 0xB1, 0xB1, 0xBF, 0xC0]

/-- Value of a bit list read MSB-first (the value get_n_bits produces for
exactly those bits). -/
def bitsVal (p : List Bool) : Nat :=
  p.foldl (fun a b => 2 * a + b.toNat) 0

/-! ### Helper lemmas about the bit reader -/

theorem byteBits_length (b : Nat) : (byteBits b).length = 8 := rfl

theorem bytesToBits_length (bs : List Nat) :
    (bytesToBits bs).length = 8 * bs.length := by
  induction bs with
  | nil => rfl
  | cons b t ih =>
    simp only [bytesToBits, List.flatMap_cons] at *
    rw [List.length_append, byteBits_length, ih, List.length_cons]
    ring

theorem get_n_bits_go_append (p : List Bool) : ∀ (acc : Nat) (r : List Bool),
    get_n_bits_go p.length acc (p ++ r) =
      some (p.foldl (fun a b => 2 * a + b.toNat) acc, r) := by
  induction p with
  | nil => intro acc r; rfl
  | cons b t ih =>
    intro acc r
    simp only [List.length_cons, List.cons_append, get_n_bits_go, get_one_bit,
      List.foldl_cons]
    exact ih (2 * acc + b.toNat) r

theorem get_n_bits_go_short : ∀ (n acc : Nat) (s : List Bool),
    s.length < n → get_n_bits_go n acc s = none := by
  intro n
  induction n with
  | zero => intro acc s h; omega
  | succ m ih =>
    intro acc s h
    cases s with
    | nil => rfl
    | cons b t =>
      simp only [get_n_bits_go, get_one_bit]
      exact ih _ t (by simpa using h)

theorem get_n_bits_append (n : Nat) (p r : List Bool) (h1 : 0 < n) (h2 : n ≤ 16)
    (hp : p.length = n) : get_n_bits n (p ++ r) = some (bitsVal p, r) := by
  subst hp
  unfold get_n_bits
  rw [if_neg (by omega), if_neg (by omega)]
  exact get_n_bits_go_append p 0 r

theorem get_n_bits_short (n : Nat) (s : List Bool) (h1 : 0 < n) (h2 : n ≤ 16)
    (hs : s.length < n) : get_n_bits n s = none := by
  unfold get_n_bits
  rw [if_neg (by omega), if_neg (by omega)]
  exact get_n_bits_go_short n 0 s hs

theorem gamma_scan_zeros : ∀ (j k : Nat) (r : List Bool), k + j ≤ 16 →
    gamma_scan (List.replicate j false ++ true :: r) k = (some (k + j), r) := by
  intro j
  induction j with
  | zero => intro k r _; simp [gamma_scan]
  | succ m ih =>
    intro k r h
    rw [List.replicate_succ, List.cons_append]
    show gamma_scan (false :: (List.replicate m false ++ true :: r)) k = _
    rw [gamma_scan]
    rw [if_neg (by simp), if_neg (by omega)]
    rw [ih (k + 1) r (by omega)]
    have : k + 1 + m = k + (m + 1) := by omega
    rw [this]

theorem gamma_scan_overflow : ∀ (j k : Nat) (r : List Bool), k + j = 16 →
    gamma_scan (List.replicate (j + 1) false ++ r) k = (none, r) := by
  intro j
  induction j with
  | zero =>
    intro k r h
    subst_vars
    simp [gamma_scan]
  | succ m ih =>
    intro k r h
    rw [List.replicate_succ, List.cons_append]
    show gamma_scan (false :: (List.replicate (m + 1) false ++ r)) k = _
    rw [gamma_scan]
    rw [if_neg (by simp), if_neg (by omega)]
    exact ih (k + 1) r (by omega)

theorem bitsVal_go_lt (p : List Bool) : ∀ acc : Nat,
    p.foldl (fun a b => 2 * a + b.toNat) acc < (acc + 1) * 2 ^ p.length := by
  induction p with
  | nil => intro acc; simp
  | cons b t ih =>
    intro acc
    simp only [List.foldl_cons, List.length_cons, pow_succ]
    have hb : b.toNat ≤ 1 := Bool.toNat_le b
    calc t.foldl (fun a b => 2 * a + b.toNat) (2 * acc + b.toNat)
        < (2 * acc + b.toNat + 1) * 2 ^ t.length := ih _
      _ ≤ ((acc + 1) * 2) * 2 ^ t.length :=
          Nat.mul_le_mul_right _ (by omega)
      _ = (acc + 1) * (2 ^ t.length * 2) := by ring

theorem bitsVal_lt (p : List Bool) : bitsVal p < 2 ^ p.length := by
  have h := bitsVal_go_lt p 0
  simpa [bitsVal] using h

/-! ### C3: gamma decoder shape -/

/-- C3 (amended): for a unary length k of at most 15, the gamma decoder
counts the k zero bits up to the first one bit, reads exactly k payload bits
MSB-first, and returns (1 <<< k) ||| payload; with k = 0 it returns exactly 1
and consumes no payload bits.  (At k = 16 the uint16_t return value truncates
the leading one bit, see the counterexample.) -/
theorem C3_gamma_unary_payload (k : Nat) (p r : List Bool)
    (hk : k ≤ 15) (hp : p.length = k) :
    get_gamma_coded_value (List.replicate k false ++ true :: (p ++ r)) =
      ((1 <<< k) ||| bitsVal p, r) := by
  have hscan := gamma_scan_zeros k 0 (p ++ r) (by omega)
  rw [Nat.zero_add] at hscan
  unfold get_gamma_coded_value
  rw [hscan]
  dsimp only
  by_cases hk0 : k = 0
  · subst hk0
    have hp0 : p = [] := List.length_eq_zero.mp hp
    subst hp0
    simp [bitsVal]
  · rw [if_neg hk0]
    rw [get_n_bits_append k p r (by omega) (by omega) hp]
    dsimp only
    have hlt : bitsVal p < 2 ^ k := hp ▸ bitsVal_lt p
    have hk2 : (2 : Nat) ^ k ≤ 2 ^ 15 := Nat.pow_le_pow_right (by norm_num) hk
    have hsmall : bitsVal p < 32768 := by
      calc bitsVal p < 2 ^ k := hlt
        _ ≤ 2 ^ 15 := hk2
        _ = 32768 := by norm_num
    rw [if_neg (by omega)]
    have hor : (1 <<< k) ||| bitsVal p < 65536 := by
      have h1 : (1 : Nat) <<< k < 2 ^ 16 := by
        rw [Nat.shiftLeft_eq, one_mul]
        calc (2 : Nat) ^ k ≤ 2 ^ 15 := hk2
          _ < 2 ^ 16 := by norm_num
      have h2 : bitsVal p < 2 ^ 16 := by omega
      have := Nat.or_lt_two_pow h1 h2
      simpa using this
    rw [Nat.mod_eq_of_lt hor]

/-- Witness for C3: k = 2, payload bits 10 (value 2), one trailing bit. -/
theorem C3_gamma_unary_payload_witness :
    get_gamma_coded_value
        (List.replicate 2 false ++ true :: ([true, false] ++ [true])) =
      ((1 <<< 2) ||| bitsVal [true, false], [true]) :=
  C3_gamma_unary_payload 2 [true, false] [true] (by norm_num) rfl

/-- C3 counterexample: a unary length of exactly 16 with payload bits of
value 5 succeeds (no error sentinel) but returns 5, not (1 <<< 16) ||| 5:
the uint16_t return type drops the leading one bit. -/
theorem C3_counterexample :
    get_gamma_coded_value (List.replicate 16 false ++ true ::
        (List.replicate 13 false ++ [true, false, true])) = (5, []) ∧
      (5 : Nat) ≠ (1 <<< 16) ||| 5 := by
  constructor
  · decide
  · decide

/-! ### C4: gamma safety bound -/

/-- C4 (amended): a unary gamma code whose zero run exceeds 16 makes the
gamma decoder fail, but with the same in-band sentinel 0 that stream
exhaustion produces; the two failure causes are not distinguishable in the
result (there is no separate MalformedCode report). -/
theorem C4_gamma_safety_bound (r : List Bool) :
    get_gamma_coded_value (List.replicate 17 false ++ r) = (0, r) ∧
      get_gamma_coded_value [] = (0, []) := by
  constructor
  · have hscan := gamma_scan_overflow 16 0 r (by omega)
    unfold get_gamma_coded_value
    rw [show (17 : Nat) = 16 + 1 from rfl, hscan]
  · rfl

/-- C4 counterexample: one stream fails inside the gamma read of a GammaCopy
because the input runs out (after the command bits 1111, only four zero bits
remain), the other because its unary run of 20 zeros exceeds the 16-bit
safety bound; both decodes end with the identical status and output, so the
two failure causes are not distinguishable in the decode result. -/
theorem C4_counterexample :
    exod_decrunch [0xF0] 8 = (Status.stopped StopKind.gammaLenFail, []) ∧
      exod_decrunch [0xF0, 0x00, 0x00] 8 =
        (Status.stopped StopKind.gammaLenFail, []) := by
  constructor
  · decide
  · decide

/-! ### C1: the Hello conformance vector -/

/-- literal_copy with the capacity test dropped; equal to literal_copy
whenever the run fits under the capacity. -/
def literal_copy_nocap : Nat → DState → Bool × DState
  | 0, s => (true, s)
  | n + 1, s =>
    match get_n_bits 8 s.bits with
    | none => (false, { s with bits := [] })
    | some (b, bits1) =>
      literal_copy_nocap n { s with bits := bits1, out := s.out ++ [b] }

theorem literal_copy_eq_nocap (cap : Nat) : ∀ (n : Nat) (s : DState),
    s.out.length + n ≤ cap → literal_copy cap n s = literal_copy_nocap n s := by
  intro n
  induction n with
  | zero => intro s _; rfl
  | succ m ih =>
    intro s h
    unfold literal_copy literal_copy_nocap
    rw [if_neg (by omega)]
    cases hg : get_n_bits 8 s.bits with
    | none => rfl
    | some x =>
      cases x with
      | mk b bits1 =>
        exact ih _ (by simp; omega)

/-- One unfolding step of the fuel-indexed loop. -/
theorem decrunch_loop_succ (cap fuel : Nat) (s : DState) :
    decrunch_loop cap (fuel + 1) s =
      if s.out.length < cap then
        match decrunch_step cap s with
        | Sum.inl r => (Status.stopped r.1, r.2)
        | Sum.inr s1 => decrunch_loop cap fuel s1
      else (Status.capacityFull, s) := rfl

/-- C1 (amended): with any output capacity of at least 6, decoding the bytes
0x11 0x21 0x95 0xB1 0xB1 0xBF 0xC0 produces exactly the five ASCII bytes of
"Hello" and stops because the stream runs out inside the gamma length read
of the next command, which was selected over the 1111 code path (the
GammaCopy table entry); there is no in-band terminator.  At capacity exactly
5 the same five bytes are produced but the loop stops at the capacity bound
instead (see the counterexample). -/
theorem C1_hello_vector (cap : Nat) (h : 6 ≤ cap) :
    exod_decrunch demo_crunched_data cap =
      (Status.stopped StopKind.gammaLenFail, [0x48, 0x65, 0x6C, 0x6C, 0x6F]) := by
  have hc1 : get_coded_command_val (bytesToBits demo_crunched_data) =
      (16, List.drop 6 (bytesToBits demo_crunched_data)) := by decide
  have hlit : literal_copy_nocap 5
      ⟨List.drop 6 (bytesToBits demo_crunched_data), [], 0⟩ =
      (true, ⟨List.drop 46 (bytesToBits demo_crunched_data),
        [0x48, 0x65, 0x6C, 0x6C, 0x6F], 0⟩) := by decide
  have hstep1 : decrunch_step cap ⟨bytesToBits demo_crunched_data, [], 0⟩ =
      Sum.inr ⟨List.drop 46 (bytesToBits demo_crunched_data),
        [0x48, 0x65, 0x6C, 0x6C, 0x6F], 0⟩ := by
    unfold decrunch_step
    rw [hc1]
    dsimp only
    rw [if_neg (by decide), if_pos (by decide)]
    rw [show (16 : Nat) / 4 + 1 = 5 from by decide]
    rw [literal_copy_eq_nocap cap 5 _ (by simp; omega)]
    rw [hlit]
  have hstep2 : decrunch_step cap
      ⟨List.drop 46 (bytesToBits demo_crunched_data),
        [0x48, 0x65, 0x6C, 0x6C, 0x6F], 0⟩ =
      Sum.inl (StopKind.gammaLenFail,
        ⟨[], [0x48, 0x65, 0x6C, 0x6C, 0x6F], 0⟩) := by
    have hc2 : get_coded_command_val
        (List.drop 46 (bytesToBits demo_crunched_data)) =
        (3, List.drop 50 (bytesToBits demo_crunched_data)) := by decide
    have hg : get_gamma_coded_value
        (List.drop 50 (bytesToBits demo_crunched_data)) = (0, []) := by decide
    unfold decrunch_step
    rw [hc2]
    dsimp only
    rw [if_neg (by decide), if_neg (by decide), if_neg (by decide),
      if_neg (by decide)]
    rw [hg]
    dsimp only
    rw [if_pos rfl]
  have hloop : decrunch_loop cap 57 ⟨bytesToBits demo_crunched_data, [], 0⟩ =
      (Status.stopped StopKind.gammaLenFail,
        ⟨[], [0x48, 0x65, 0x6C, 0x6C, 0x6F], 0⟩) := by
    rw [show (57 : Nat) = 56 + 1 from rfl, decrunch_loop_succ]
    rw [if_pos (show (⟨bytesToBits demo_crunched_data, [], 0⟩ : DState).out.length < cap from by
      simp only [List.length_nil]; omega)]
    rw [hstep1]
    dsimp only
    rw [show (56 : Nat) = 55 + 1 from rfl, decrunch_loop_succ]
    rw [if_pos (by simp only [List.length_cons, List.length_nil]; omega)]
    rw [hstep2]
  unfold exod_decrunch
  dsimp only
  rw [show 8 * demo_crunched_data.length + 1 = 57 from by decide]
  rw [hloop]

/-- Witness for C1 at capacity 8. -/
theorem C1_hello_vector_witness :
    exod_decrunch demo_crunched_data 8 =
      (Status.stopped StopKind.gammaLenFail, [0x48, 0x65, 0x6C, 0x6C, 0x6F]) :=
  C1_hello_vector 8 (by norm_num)

/-- C1 counterexample: at output capacity exactly 5 (which the claim's "at
least 5" includes) the five bytes of "Hello" still come out, but the loop
stops at the capacity bound before ever selecting the next (GammaCopy)
command, so decoding does not terminate via stream exhaustion inside a
GammaCopy there. -/
theorem C1_counterexample :
    exod_decrunch demo_crunched_data 5 =
      (Status.capacityFull, [0x48, 0x65, 0x6C, 0x6C, 0x6F]) := by
  decide

/-! ### C5: the fixed 4-level command code tree -/

/-- C5: command selection follows exactly the fixed code tree: a leading 0
takes a 5-bit index into table[108..]; 10 takes a 4-bit index into
table[36..]; 110 a 3-bit index into table[72..]; 1110 a 2-bit index into
table[0..]; the path 1111 selects table[144]; and any bit or multi-bit read
failure along the path yields the 0xFF stream-exhaustion marker. -/
theorem C5_command_tree (p r : List Bool) :
    (p.length = 5 →
      get_coded_command_val (false :: (p ++ r)) =
        (exod_decrunch_table_data.getD (108 + bitsVal p) 0, r)) ∧
    (p.length = 4 →
      get_coded_command_val (true :: false :: (p ++ r)) =
        (exod_decrunch_table_data.getD (36 + bitsVal p) 0, r)) ∧
    (p.length = 3 →
      get_coded_command_val (true :: true :: false :: (p ++ r)) =
        (exod_decrunch_table_data.getD (72 + bitsVal p) 0, r)) ∧
    (p.length = 2 →
      get_coded_command_val (true :: true :: true :: false :: (p ++ r)) =
        (exod_decrunch_table_data.getD (0 + bitsVal p) 0, r)) ∧
    (get_coded_command_val (true :: true :: true :: true :: r) =
      (exod_decrunch_table_data.getD 144 0, r)) ∧
    (get_coded_command_val [] = (COMMAND_EOS_MARKER, [])) ∧
    (p.length < 5 →
      get_coded_command_val (false :: p) = (COMMAND_EOS_MARKER, [])) ∧
    (get_coded_command_val [true] = (COMMAND_EOS_MARKER, [])) ∧
    (p.length < 4 →
      get_coded_command_val (true :: false :: p) = (COMMAND_EOS_MARKER, [])) ∧
    (get_coded_command_val [true, true] = (COMMAND_EOS_MARKER, [])) ∧
    (p.length < 3 →
      get_coded_command_val (true :: true :: false :: p) =
        (COMMAND_EOS_MARKER, [])) ∧
    (get_coded_command_val [true, true, true] = (COMMAND_EOS_MARKER, [])) ∧
    (p.length < 2 →
      get_coded_command_val (true :: true :: true :: false :: p) =
        (COMMAND_EOS_MARKER, [])) := by
  refine ⟨?_, ?_, ?_, ?_, ?_, ?_, ?_, ?_, ?_, ?_, ?_, ?_, ?_⟩
  · intro hp
    unfold get_coded_command_val
    rw [show get_one_bit (false :: (p ++ r)) = some (false, p ++ r) from rfl]
    dsimp only
    rw [get_n_bits_append 5 p r (by omega) (by omega) hp]
  · intro hp
    unfold get_coded_command_val
    dsimp only [get_one_bit]
    rw [get_n_bits_append 4 p r (by omega) (by omega) hp]
  · intro hp
    unfold get_coded_command_val
    dsimp only [get_one_bit]
    rw [get_n_bits_append 3 p r (by omega) (by omega) hp]
  · intro hp
    unfold get_coded_command_val
    dsimp only [get_one_bit]
    rw [get_n_bits_append 2 p r (by omega) (by omega) hp]
  · rfl
  · rfl
  · intro hp
    unfold get_coded_command_val
    dsimp only [get_one_bit]
    rw [get_n_bits_short 5 p (by omega) (by omega) hp]
  · rfl
  · intro hp
    unfold get_coded_command_val
    dsimp only [get_one_bit]
    rw [get_n_bits_short 4 p (by omega) (by omega) hp]
  · rfl
  · intro hp
    unfold get_coded_command_val
    dsimp only [get_one_bit]
    rw [get_n_bits_short 3 p (by omega) (by omega) hp]
  · rfl
  · intro hp
    unfold get_coded_command_val
    dsimp only [get_one_bit]
    rw [get_n_bits_short 2 p (by omega) (by omega) hp]

/-- Witness for C5: the first and the last code paths at concrete bits. -/
theorem C5_command_tree_witness :
    get_coded_command_val
        (false :: ([false, false, true, false, false] ++ [true])) =
      (exod_decrunch_table_data.getD
        (108 + bitsVal [false, false, true, false, false]) 0, [true]) ∧
    get_coded_command_val (true :: true :: true :: false :: [true]) =
      (COMMAND_EOS_MARKER, []) :=
  ⟨(C5_command_tree [false, false, true, false, false] [true]).1 rfl,
   ((C5_command_tree [true] []).2.2.2.2.2.2.2.2.2.2.2.2) (by norm_num)⟩

/-! ### Structure lemmas about the copy loops -/

theorem sequence_copy_bits (cap off : Nat) : ∀ (n : Nat) (s : DState),
    (sequence_copy cap off n s).bits = s.bits := by
  intro n
  induction n with
  | zero => intro s; rfl
  | succ m ih =>
    intro s
    unfold sequence_copy
    by_cases hc : cap ≤ s.out.length
    · rw [if_pos hc]
    · rw [if_neg hc, ih]

theorem sequence_copy_lastOffset (cap off : Nat) : ∀ (n : Nat) (s : DState),
    (sequence_copy cap off n s).lastOffset = s.lastOffset := by
  intro n
  induction n with
  | zero => intro s; rfl
  | succ m ih =>
    intro s
    unfold sequence_copy
    by_cases hc : cap ≤ s.out.length
    · rw [if_pos hc]
    · rw [if_neg hc, ih]

theorem sequence_copy_out_extends (cap off : Nat) : ∀ (n : Nat) (s : DState),
    ∃ t, (sequence_copy cap off n s).out = s.out ++ t := by
  intro n
  induction n with
  | zero => intro s; exact ⟨[], (List.append_nil _).symm⟩
  | succ m ih =>
    intro s
    unfold sequence_copy
    by_cases hc : cap ≤ s.out.length
    · rw [if_pos hc]; exact ⟨[], (List.append_nil _).symm⟩
    · rw [if_neg hc]
      obtain ⟨t, ht⟩ := ih { s with out := s.out ++ [s.out.getD (s.out.length - off) 0] }
      exact ⟨s.out.getD (s.out.length - off) 0 :: t, by simpa using ht⟩

/-! ### C6: overlap-safe byte-at-a-time back-reference copy -/

/-- C6: a back-reference copy with 1 <= off <= bytes-already-written moves
single bytes, so every byte it appends equals the byte off positions before
it in the final output: later reads of the same instruction observe its own
earlier writes (with off = 1 this repeats the last byte).  Concretely, an
output holding just "A" followed by a Copy of length 5 at distance 1 passes
the validity check and yields "AAAAAA". -/
theorem C6_overlap_copy (cap off : Nat) (hoff : 1 ≤ off) :
    (∀ (n : Nat) (s : DState), off ≤ s.out.length →
      ∀ j, s.out.length ≤ j → j < (sequence_copy cap off n s).out.length →
        (sequence_copy cap off n s).out.getD j 0 =
          (sequence_copy cap off n s).out.getD (j - off) 0) ∧
    apply_sequence 100 5 1 ⟨[], [65], 0⟩ =
      Sum.inr ⟨[], [65, 65, 65, 65, 65, 65], 0⟩ := by
  constructor
  · intro n
    induction n with
    | zero =>
      intro s hs j hj1 hj2
      exact absurd hj2 (by unfold sequence_copy; omega)
    | succ m ih =>
      intro s hs j hj1 hj2
      rw [show sequence_copy cap off (m + 1) s =
          if cap ≤ s.out.length then s
          else sequence_copy cap off m
            { s with out := s.out ++ [s.out.getD (s.out.length - off) 0] }
          from rfl] at hj2 ⊢
      by_cases hc : cap ≤ s.out.length
      · rw [if_pos hc] at hj2 ⊢
        omega
      · rw [if_neg hc] at hj2 ⊢
        set b := s.out.getD (s.out.length - off) 0 with hb
        set s1 : DState := { s with out := s.out ++ [b] } with hs1
        have hs1len : s1.out.length = s.out.length + 1 := by
          simp [hs1]
        rcases Nat.lt_or_ge j (s.out.length + 1) with hlt | hge
        · -- j is exactly the first position written by this instruction
          have hj : j = s.out.length := by omega
          subst hj
          obtain ⟨t, ht⟩ := sequence_copy_out_extends cap off m s1
          rw [ht]
          have h1 : (s1.out ++ t).getD s.out.length 0 = s1.out.getD s.out.length 0 :=
            List.getD_append s1.out t 0 s.out.length (by omega)
          have h2 : s1.out.getD s.out.length 0 = b := by
            show (s.out ++ [b]).getD s.out.length 0 = b
            rw [List.getD_append_right s.out [b] 0 s.out.length (le_refl _)]
            simp
          have h3 : (s1.out ++ t).getD (s.out.length - off) 0 =
              s1.out.getD (s.out.length - off) 0 :=
            List.getD_append s1.out t 0 _ (by omega)
          have h4 : s1.out.getD (s.out.length - off) 0 = b := by
            show (s.out ++ [b]).getD (s.out.length - off) 0 = b
            rw [List.getD_append s.out [b] 0 _ (by omega)]
          rw [h1, h2, h3, h4]
        · -- j lies in the part the recursive call writes
          exact ih s1 (by omega) j (by omega) hj2
  · decide

/-- Witness for C6: the generic part applied to the concrete Copy of length
5 at distance 1 over the single byte "A", at position 3 of the result. -/
theorem C6_overlap_copy_witness :
    (sequence_copy 100 1 5 ⟨[], [65], 0⟩).out.getD 3 0 =
      (sequence_copy 100 1 5 ⟨[], [65], 0⟩).out.getD (3 - 1) 0 :=
  (C6_overlap_copy 100 1 (le_refl 1)).1 5 ⟨[], [65], 0⟩ (by decide) 3
    (by decide) (by decide)

/-! ### C2: distance recording and reuse -/

/-- C2 (amended): a GammaCopy command whose reuse bit is 0 and that decodes
a new distance d copies at distance d and records d as the last offset; a
GammaCopy command whose reuse bit is 1 copies at the recorded last offset,
so an immediately following reuse copies at the same d.  A reuse bit of 1
before any distance has been recorded (last offset still 0) fails, but via
the offset-validity check (the invalid-offset error return, the same path an
out-of-range back-reference takes): there is no distinct
reuse-without-prior-distance error kind in the code. -/
theorem C2_reuse_semantics (cap : Nat) (s : DState) (b1 b2 b3 b4 : List Bool)
    (L1 d : Nat)
    (hcmd : get_coded_command_val s.bits = (3, b1))
    (hgam : get_gamma_coded_value b1 = (L1, b2)) (hL1 : L1 ≠ 0)
    (hbit : get_one_bit b2 = some (false, b3))
    (hgoff : get_gamma_coded_value b3 = (d, b4)) (hd0 : d ≠ 0)
    (hd2 : d ≤ s.out.length) :
    (decrunch_step cap s =
        Sum.inr (sequence_copy cap d ((L1 + 3) % 65536) ⟨b4, s.out, d⟩) ∧
      (sequence_copy cap d ((L1 + 3) % 65536)
        (⟨b4, s.out, d⟩ : DState)).lastOffset = d) ∧
    (∀ (s1 : DState) (c1 c2 c3 : List Bool) (L2 : Nat),
      s1.lastOffset = d →
      get_coded_command_val s1.bits = (3, c1) →
      get_gamma_coded_value c1 = (L2, c2) → L2 ≠ 0 →
      get_one_bit c2 = some (true, c3) → d ≤ s1.out.length →
      decrunch_step cap s1 =
        Sum.inr (sequence_copy cap d ((L2 + 3) % 65536)
          ⟨c3, s1.out, s1.lastOffset⟩)) ∧
    (∀ (s2 : DState) (e1 e2 e3 : List Bool) (L3 : Nat),
      s2.lastOffset = 0 →
      get_coded_command_val s2.bits = (3, e1) →
      get_gamma_coded_value e1 = (L3, e2) → L3 ≠ 0 →
      get_one_bit e2 = some (true, e3) →
      decrunch_step cap s2 =
        Sum.inl (StopKind.invalidOffset, ⟨e3, s2.out, s2.lastOffset⟩)) := by
  refine ⟨⟨?_, ?_⟩, ?_, ?_⟩
  · unfold decrunch_step
    rw [hcmd]
    dsimp only
    rw [if_neg (by decide), if_neg (by decide), if_neg (by decide),
      if_neg (by decide)]
    rw [hgam]
    dsimp only
    rw [if_neg hL1]
    rw [hbit]
    dsimp only
    rw [hgoff]
    dsimp only
    rw [if_neg hd0]
    unfold apply_sequence
    rw [if_neg (by simp only [not_or]; exact ⟨hd0, by simp; omega⟩)]
  · rw [sequence_copy_lastOffset]
  · intro s1 c1 c2 c3 L2 hlast hcmd1 hgam1 hL2 hbit1 hd3
    unfold decrunch_step
    rw [hcmd1]
    dsimp only
    rw [if_neg (by decide), if_neg (by decide), if_neg (by decide),
      if_neg (by decide)]
    rw [hgam1]
    dsimp only
    rw [if_neg hL2]
    rw [hbit1]
    dsimp only
    unfold apply_sequence
    rw [hlast]
    rw [if_neg (by simp only [not_or]; exact ⟨hd0, by simp; omega⟩)]
  · intro s2 e1 e2 e3 L3 hlast hcmd2 hgam2 hL3 hbit2
    unfold decrunch_step
    rw [hcmd2]
    dsimp only
    rw [if_neg (by decide), if_neg (by decide), if_neg (by decide),
      if_neg (by decide)]
    rw [hgam2]
    dsimp only
    rw [if_neg hL3]
    rw [hbit2]
    dsimp only
    unfold apply_sequence
    rw [hlast]
    rw [if_pos (Or.inl rfl)]

/-- Witness for C2: the stream 0x01 0x07 0xEF 0xE0 holds a one-byte literal
"A", a GammaCopy recording distance 1, and a GammaCopy with reuse bit 1;
both copies run at distance 1, and the reuse-with-no-recorded-distance case
is exercised with the single byte 0xFC. -/
theorem C2_reuse_semantics_witness :
    decrunch_step 100
        ⟨[true, true, true, true, true, false, true, true, true, true, true,
          true, true, false, false, false, false, false], [65], 0⟩ =
      Sum.inr (sequence_copy 100 1 ((1 + 3) % 65536)
        ⟨[true, true, true, true, true, true, false, false, false, false,
          false], [65], 1⟩) ∧
    decrunch_step 100
        ⟨[true, true, true, true, true, true, false, false, false, false,
          false], [65, 65, 65, 65, 65], 1⟩ =
      Sum.inr (sequence_copy 100 1 ((1 + 3) % 65536)
        ⟨[false, false, false, false, false], [65, 65, 65, 65, 65], 1⟩) ∧
    decrunch_step 100 ⟨[true, true, true, true, true, true, false, false],
        [], 0⟩ =
      Sum.inl (StopKind.invalidOffset, ⟨[false, false], [], 0⟩) := by
  have h := C2_reuse_semantics 100
    ⟨[true, true, true, true, true, false, true, true, true, true, true,
      true, true, false, false, false, false, false], [65], 0⟩
    [true, false, true, true, true, true, true, true, true, false, false,
      false, false, false]
    [false, true, true, true, true, true, true, true, false, false, false,
      false, false]
    [true, true, true, true, true, true, true, false, false, false, false,
      false]
    [true, true, true, true, true, true, false, false, false, false, false]
    1 1 (by decide) (by decide) (by decide) (by decide) (by decide)
    (by decide) (by decide)
  refine ⟨h.1.1, ?_, ?_⟩
  · exact h.2.1
      ⟨[true, true, true, true, true, true, false, false, false, false,
        false], [65, 65, 65, 65, 65], 1⟩
      [true, true, false, false, false, false, false]
      [true, false, false, false, false, false]
      [false, false, false, false, false] 1
      (by decide) (by decide) (by decide) (by decide) (by decide) (by decide)
  · exact h.2.2
      ⟨[true, true, true, true, true, true, false, false], [], 0⟩
      [true, true, false, false] [true, false, false] [false, false] 1
      (by decide) (by decide) (by decide) (by decide) (by decide)

/-- C2 counterexample: a reuse bit of 1 before any distance was recorded
does fail, but with the very same observable outcome (the invalid-offset
error exit, empty output) that a genuinely out-of-range back-reference
produces, so there is no distinct ReuseWithNoPriorDistance error kind.
0xFC is a GammaCopy with reuse bit 1 and no prior distance; 0xFA is a
GammaCopy encoding the new distance 1 against a still-empty output. -/
theorem C2_counterexample :
    exod_decrunch [0xFC] 8 = (Status.stopped StopKind.invalidOffset, []) ∧
      exod_decrunch [0xFA] 8 = (Status.stopped StopKind.invalidOffset, []) := by
  constructor
  · decide
  · decide

/-! ### C7: invalid back-reference distances -/

/-- C7: at the point where a Copy instruction is applied, a distance of 0 or
greater than the number of bytes already output takes the invalid-offset
error exit and writes nothing; in particular a GammaCopy decoding a fresh
distance beyond the current output fails that way, and a whole decode whose
first instruction is such a copy ends with the invalid-offset status and an
empty output. -/
theorem C7_invalid_distance :
    (∀ (cap len off : Nat) (s : DState), off = 0 ∨ s.out.length < off →
      apply_sequence cap len off s = Sum.inl (StopKind.invalidOffset, s)) ∧
    (∀ (cap : Nat) (s : DState) (b1 b2 b3 b4 : List Bool) (L d : Nat),
      get_coded_command_val s.bits = (3, b1) →
      get_gamma_coded_value b1 = (L, b2) → L ≠ 0 →
      get_one_bit b2 = some (false, b3) →
      get_gamma_coded_value b3 = (d, b4) → d ≠ 0 → s.out.length < d →
      decrunch_step cap s = Sum.inl (StopKind.invalidOffset, ⟨b4, s.out, d⟩)) ∧
    exod_decrunch [0xFA] 8 = (Status.stopped StopKind.invalidOffset, []) := by
  refine ⟨?_, ?_, ?_⟩
  · intro cap len off s h
    unfold apply_sequence
    rw [if_pos h]
  · intro cap s b1 b2 b3 b4 L d hcmd hgam hL hbit hgoff hd0 hd1
    unfold decrunch_step
    rw [hcmd]
    dsimp only
    rw [if_neg (by decide), if_neg (by decide), if_neg (by decide),
      if_neg (by decide)]
    rw [hgam]
    dsimp only
    rw [if_neg hL]
    rw [hbit]
    dsimp only
    rw [hgoff]
    dsimp only
    rw [if_neg hd0]
    unfold apply_sequence
    rw [if_pos (Or.inr (by simpa using hd1))]
  · decide

/-- Witness for C7: the guard at distance 5 against 2 output bytes, and the
full step on the byte 0xFA (GammaCopy, new distance 1, empty output). -/
theorem C7_invalid_distance_witness :
    apply_sequence 8 2 5 ⟨[], [1, 2], 0⟩ =
      Sum.inl (StopKind.invalidOffset, ⟨[], [1, 2], 0⟩) ∧
    decrunch_step 8 ⟨[true, true, true, true, true, false, true, false],
        [], 0⟩ =
      Sum.inl (StopKind.invalidOffset, ⟨[false], [], 1⟩) := by
  constructor
  · exact C7_invalid_distance.1 8 2 5 ⟨[], [1, 2], 0⟩ (Or.inr (by decide))
  · exact C7_invalid_distance.2.1 8
      ⟨[true, true, true, true, true, false, true, false], [], 0⟩
      [true, false, true, false] [false, true, false] [true, false] [false]
      1 1 (by decide) (by decide) (by decide) (by decide) (by decide)
      (by decide) (by decide)

/-! ### Length accounting for the readers and copy loops -/

theorem get_n_bits_go_len : ∀ (n acc : Nat) (s s1 : List Bool) (v : Nat),
    get_n_bits_go n acc s = some (v, s1) → s1.length + n = s.length := by
  intro n
  induction n with
  | zero =>
    intro acc s s1 v h
    unfold get_n_bits_go at h
    injection h with h1
    have h2 : s.length = s1.length := congrArg (fun p => p.2.length) h1
    omega
  | succ m ih =>
    intro acc s s1 v h
    cases s with
    | nil => exact absurd h (by unfold get_n_bits_go get_one_bit; simp)
    | cons b t =>
      unfold get_n_bits_go get_one_bit at h
      dsimp only at h
      have := ih (2 * acc + b.toNat) t s1 v h
      simp only [List.length_cons]
      omega

theorem get_n_bits_len (n : Nat) (s s1 : List Bool) (v : Nat)
    (h : get_n_bits n s = some (v, s1)) : s1.length + n = s.length := by
  unfold get_n_bits at h
  by_cases h0 : n = 0
  · subst h0
    rw [if_pos rfl] at h
    injection h with h1
    have h2 : s.length = s1.length := congrArg (fun p => p.2.length) h1
    omega
  · rw [if_neg h0] at h
    by_cases h16 : n > 16
    · rw [if_pos h16] at h; exact absurd h (by simp)
    · rw [if_neg h16] at h
      exact get_n_bits_go_len n 0 s s1 v h

theorem gamma_scan_len : ∀ (s : List Bool) (k : Nat),
    (gamma_scan s k).2.length ≤ s.length := by
  intro s
  induction s with
  | nil => intro k; simp [gamma_scan]
  | cons b t ih =>
    intro k
    unfold gamma_scan
    by_cases hb : b
    · rw [if_pos hb]; simp
    · rw [if_neg hb]
      by_cases hk : k + 1 > 16
      · rw [if_pos hk]; simp
      · rw [if_neg hk]
        calc (gamma_scan t (k + 1)).2.length ≤ t.length := ih (k + 1)
          _ ≤ (b :: t).length := by simp

theorem get_gamma_coded_value_len (s : List Bool) :
    (get_gamma_coded_value s).2.length ≤ s.length := by
  unfold get_gamma_coded_value
  cases hsc : gamma_scan s 0 with
  | mk ok s1 =>
    have hs1 : s1.length ≤ s.length := by
      have := gamma_scan_len s 0
      rw [hsc] at this
      exact this
    cases ok with
    | none => exact hs1
    | some k =>
      dsimp only
      by_cases hk : k = 0
      · rw [if_pos hk]; exact hs1
      · rw [if_neg hk]
        cases hnb : get_n_bits k s1 with
        | none => simp
        | some x =>
          cases x with
          | mk v s2 =>
            dsimp only
            have h2 := get_n_bits_len k s1 s2 v hnb
            by_cases hv : v = 65535
            · rw [if_pos hv]; dsimp only; omega
            · rw [if_neg hv]; dsimp only; omega

theorem get_coded_command_val_len (s s1 : List Bool) (cb : Nat)
    (h : get_coded_command_val s = (cb, s1)) (hcb : cb ≠ COMMAND_EOS_MARKER) :
    s1.length < s.length := by
  unfold get_coded_command_val at h
  cases s with
  | nil => exact absurd (congrArg Prod.fst h).symm hcb
  | cons b t =>
    cases b with
    | false =>
      dsimp only [get_one_bit] at h
      cases hnb : get_n_bits 5 t with
      | none =>
        rw [hnb] at h
        exact absurd (congrArg Prod.fst h).symm hcb
      | some x =>
        cases x with
        | mk i s2 =>
          rw [hnb] at h
          have hs : s1 = s2 := (congrArg Prod.snd h).symm
          have := get_n_bits_len 5 t s2 i hnb
          subst hs
          simp only [List.length_cons]
          omega
    | true =>
      dsimp only [get_one_bit] at h
      cases t with
      | nil => exact absurd (congrArg Prod.fst h).symm hcb
      | cons b2 t2 =>
        cases b2 with
        | false =>
          dsimp only at h
          cases hnb : get_n_bits 4 t2 with
          | none =>
            rw [hnb] at h
            exact absurd (congrArg Prod.fst h).symm hcb
          | some x =>
            cases x with
            | mk i s2 =>
              rw [hnb] at h
              have hs : s1 = s2 := (congrArg Prod.snd h).symm
              have := get_n_bits_len 4 t2 s2 i hnb
              subst hs
              simp only [List.length_cons]
              omega
        | true =>
          dsimp only at h
          cases t2 with
          | nil => exact absurd (congrArg Prod.fst h).symm hcb
          | cons b3 t3 =>
            cases b3 with
            | false =>
              dsimp only at h
              cases hnb : get_n_bits 3 t3 with
              | none =>
                rw [hnb] at h
                exact absurd (congrArg Prod.fst h).symm hcb
              | some x =>
                cases x with
                | mk i s2 =>
                  rw [hnb] at h
                  have hs : s1 = s2 := (congrArg Prod.snd h).symm
                  have := get_n_bits_len 3 t3 s2 i hnb
                  subst hs
                  simp only [List.length_cons]
                  omega
            | true =>
              dsimp only at h
              cases t3 with
              | nil => exact absurd (congrArg Prod.fst h).symm hcb
              | cons b4 t4 =>
                cases b4 with
                | false =>
                  dsimp only at h
                  cases hnb : get_n_bits 2 t4 with
                  | none =>
                    rw [hnb] at h
                    exact absurd (congrArg Prod.fst h).symm hcb
                  | some x =>
                    cases x with
                    | mk i s2 =>
                      rw [hnb] at h
                      have hs : s1 = s2 := (congrArg Prod.snd h).symm
                      have := get_n_bits_len 2 t4 s2 i hnb
                      subst hs
                      simp only [List.length_cons]
                      omega
                | true =>
                  dsimp only at h
                  have hs : s1 = t4 := (congrArg Prod.snd h).symm
                  subst hs
                  simp only [List.length_cons]
                  omega

theorem literal_copy_out_le (cap : Nat) : ∀ (n : Nat) (s : DState),
    s.out.length ≤ cap → ((literal_copy cap n s).2).out.length ≤ cap := by
  intro n
  induction n with
  | zero => intro s h; exact h
  | succ m ih =>
    intro s h
    unfold literal_copy
    by_cases hc : cap ≤ s.out.length
    · rw [if_pos hc]; exact h
    · rw [if_neg hc]
      cases hnb : get_n_bits 8 s.bits with
      | none => exact h
      | some x =>
        cases x with
        | mk b bits1 =>
          exact ih _ (by simp only [List.length_append, List.length_cons,
            List.length_nil]; omega)

theorem literal_copy_bits_le (cap : Nat) : ∀ (n : Nat) (s : DState),
    ((literal_copy cap n s).2).bits.length ≤ s.bits.length := by
  intro n
  induction n with
  | zero => intro s; exact le_refl _
  | succ m ih =>
    intro s
    unfold literal_copy
    by_cases hc : cap ≤ s.out.length
    · rw [if_pos hc]
    · rw [if_neg hc]
      cases hnb : get_n_bits 8 s.bits with
      | none => simp
      | some x =>
        cases x with
        | mk b bits1 =>
          have h8 := get_n_bits_len 8 s.bits bits1 b hnb
          calc ((literal_copy cap m
                  { s with bits := bits1, out := s.out ++ [b] }).2).bits.length
              ≤ bits1.length := ih _
            _ ≤ s.bits.length := by omega

theorem sequence_copy_out_le (cap off : Nat) : ∀ (n : Nat) (s : DState),
    s.out.length ≤ cap → (sequence_copy cap off n s).out.length ≤ cap := by
  intro n
  induction n with
  | zero => intro s h; exact h
  | succ m ih =>
    intro s h
    unfold sequence_copy
    by_cases hc : cap ≤ s.out.length
    · rw [if_pos hc]; exact h
    · rw [if_neg hc]
      exact ih _ (by simp only [List.length_append, List.length_cons,
        List.length_nil]; omega)

/-- Every stop leaves the output within the capacity, and every continuing
step keeps the output within the capacity and strictly consumes input bits
(the selected command alone costs at least two bits). -/
theorem decrunch_step_sound (cap : Nat) (s : DState) (h : s.out.length ≤ cap) :
    Sum.elim (fun r : StopKind × DState => r.2.out.length ≤ cap)
      (fun s1 : DState =>
        s1.out.length ≤ cap ∧ s1.bits.length < s.bits.length)
      (decrunch_step cap s) := by
  unfold decrunch_step
  cases hcv : get_coded_command_val s.bits with
  | mk cb bits1 =>
    dsimp only
    by_cases hcb : cb = COMMAND_EOS_MARKER
    · rw [if_pos hcb]
      exact h
    · rw [if_neg hcb]
      have hbl : bits1.length < s.bits.length :=
        get_coded_command_val_len s.bits bits1 cb hcv hcb
      by_cases ht0 : cb % 4 = 0
      · rw [if_pos ht0]
        cases hlit : literal_copy cap (cb / 4 + 1) { s with bits := bits1 } with
        | mk ok s1 =>
          have hout : s1.out.length ≤ cap := by
            have := literal_copy_out_le cap (cb / 4 + 1)
              { s with bits := bits1 } h
            rw [hlit] at this
            exact this
          cases ok with
          | true =>
            refine ⟨hout, ?_⟩
            have := literal_copy_bits_le cap (cb / 4 + 1) { s with bits := bits1 }
            rw [hlit] at this
            exact lt_of_le_of_lt this hbl
          | false => exact hout
      · rw [if_neg ht0]
        by_cases ht1 : cb % 4 = 1
        · rw [if_pos ht1]
          cases hnb : get_n_bits (cb / 4) bits1 with
          | none => exact h
          | some x =>
            cases x with
            | mk raw bits2 =>
              have hb2 : bits2.length ≤ bits1.length := by
                have := get_n_bits_len (cb / 4) bits1 bits2 raw hnb
                omega
              dsimp only
              unfold apply_sequence
              by_cases hval : raw + 1 = 0 ∨
                  (DState.mk bits2 s.out s.lastOffset).out.length < raw + 1
              · rw [if_pos hval]; exact h
              · rw [if_neg hval]
                refine ⟨sequence_copy_out_le cap (raw + 1) 2 _ h, ?_⟩
                rw [sequence_copy_bits]
                exact lt_of_le_of_lt hb2 hbl
        · rw [if_neg ht1]
          by_cases ht2 : cb % 4 = 2
          · rw [if_pos ht2]
            cases hnb : get_n_bits (cb / 4) bits1 with
            | none => exact h
            | some x =>
              cases x with
              | mk raw bits2 =>
                have hb2 : bits2.length ≤ bits1.length := by
                  have := get_n_bits_len (cb / 4) bits1 bits2 raw hnb
                  omega
                dsimp only
                unfold apply_sequence
                by_cases hval : raw + 1 = 0 ∨
                    (DState.mk bits2 s.out s.lastOffset).out.length < raw + 1
                · rw [if_pos hval]; exact h
                · rw [if_neg hval]
                  refine ⟨sequence_copy_out_le cap (raw + 1) 3 _ h, ?_⟩
                  rw [sequence_copy_bits]
                  exact lt_of_le_of_lt hb2 hbl
          · rw [if_neg ht2]
            cases hg : get_gamma_coded_value bits1 with
            | mk glen bits2 =>
              have hb2 : bits2.length ≤ bits1.length := by
                have := get_gamma_coded_value_len bits1
                rw [hg] at this
                exact this
              dsimp only
              by_cases hglen : glen = 0
              · rw [if_pos hglen]; exact h
              · rw [if_neg hglen]
                cases hob : get_one_bit bits2 with
                | none => exact h
                | some x =>
                  cases x with
                  | mk bval bits3 =>
                    have hb3 : bits3.length < bits2.length := by
                      cases bits2 with
                      | nil => exact absurd hob (by unfold get_one_bit; simp)
                      | cons bb tt =>
                        unfold get_one_bit at hob
                        injection hob with h1
                        have : bits3 = tt := (congrArg Prod.snd h1).symm
                        subst this
                        simp
                    cases bval with
                    | true =>
                      dsimp only
                      unfold apply_sequence
                      by_cases hval : s.lastOffset = 0 ∨
                          (DState.mk bits3 s.out s.lastOffset).out.length <
                            s.lastOffset
                      · rw [if_pos hval]; exact h
                      · rw [if_neg hval]
                        refine ⟨sequence_copy_out_le cap s.lastOffset
                          ((glen + 3) % 65536) _ h, ?_⟩
                        rw [sequence_copy_bits]
                        dsimp only
                        omega
                    | false =>
                      dsimp only
                      cases hg2 : get_gamma_coded_value bits3 with
                      | mk goff bits4 =>
                        have hb4 : bits4.length ≤ bits3.length := by
                          have := get_gamma_coded_value_len bits3
                          rw [hg2] at this
                          exact this
                        dsimp only
                        by_cases hgoff : goff = 0
                        · rw [if_pos hgoff]; exact h
                        · rw [if_neg hgoff]
                          unfold apply_sequence
                          by_cases hval : goff = 0 ∨
                              (DState.mk bits4 s.out goff).out.length < goff
                          · rw [if_pos hval]; exact h
                          · rw [if_neg hval]
                            refine ⟨sequence_copy_out_le cap goff
                              ((glen + 3) % 65536) _ h, ?_⟩
                            rw [sequence_copy_bits]
                            dsimp only
                            omega

theorem decrunch_loop_out_le (cap : Nat) : ∀ (fuel : Nat) (s : DState),
    s.out.length ≤ cap → ((decrunch_loop cap fuel s).2).out.length ≤ cap := by
  intro fuel
  induction fuel with
  | zero => intro s h; exact h
  | succ m ih =>
    intro s h
    rw [decrunch_loop_succ]
    by_cases hlt : s.out.length < cap
    · rw [if_pos hlt]
      have hs := decrunch_step_sound cap s h
      cases hstep : decrunch_step cap s with
      | inl r =>
        rw [hstep] at hs
        exact hs
      | inr s1 =>
        rw [hstep] at hs
        exact ih s1 hs.1
    · rw [if_neg hlt]
      exact h

theorem decrunch_loop_no_fuel (cap : Nat) : ∀ (fuel : Nat) (s : DState),
    s.bits.length < fuel →
    (decrunch_loop cap fuel s).1 ≠ Status.fuelOut := by
  intro fuel
  induction fuel with
  | zero => intro s h; omega
  | succ m ih =>
    intro s h
    rw [decrunch_loop_succ]
    by_cases hlt : s.out.length < cap
    · rw [if_pos hlt]
      have hs := decrunch_step_sound cap s (le_of_lt hlt)
      cases hstep : decrunch_step cap s with
      | inl r =>
        rw [hstep] at hs
        dsimp only
        simp
      | inr s1 =>
        rw [hstep] at hs
        dsimp only
        have h2 : s1.bits.length < s.bits.length := hs.2
        exact ih s1 (by omega)
    · rw [if_neg hlt]
      simp

/-! ### C8: the output never exceeds the capacity -/

/-- C8: every decode, on any input and capacity, produces at most capacity
bytes (the write position of this embedding is the output length, and both
copy loops re-check the bound before every single write, so the bound also
holds mid-instruction); decoding the "Hello" stream into a 3-byte buffer
stops exactly at capacity with the capacity-full exit and the first 3
bytes. -/
theorem C8_capacity_bound :
    (∀ (in_data : List Nat) (cap : Nat),
      (exod_decrunch in_data cap).2.length ≤ cap) ∧
    exod_decrunch demo_crunched_data 3 =
      (Status.capacityFull, [0x48, 0x65, 0x6C]) := by
  constructor
  · intro l cap
    unfold exod_decrunch
    dsimp only
    exact decrunch_loop_out_le cap _ _ (by simp)
  · decide

/-! ### C10: termination of the decode loop -/

/-- C10: every continuing loop iteration strictly consumes input bits (so in
particular it either advances the output or consumes input), and with the
fuel exod_decrunch supplies (one more than the number of input bits) the
loop never exhausts it: decoding always terminates, for every finite input
and capacity. -/
theorem C10_termination :
    (∀ (cap : Nat) (s s1 : DState), s.out.length < cap →
      decrunch_step cap s = Sum.inr s1 →
      s1.bits.length < s.bits.length) ∧
    (∀ (in_data : List Nat) (cap : Nat),
      (exod_decrunch in_data cap).1 ≠ Status.fuelOut) := by
  constructor
  · intro cap s s1 hlt hstep
    have hs := decrunch_step_sound cap s (le_of_lt hlt)
    rw [hstep] at hs
    exact hs.2
  · intro l cap
    unfold exod_decrunch
    dsimp only
    apply decrunch_loop_no_fuel
    dsimp only
    rw [bytesToBits_length]
    omega

/-- Witness for C10: the first step of the Hello decode consumes 46 of the
56 input bits. -/
theorem C10_termination_witness :
    (⟨List.drop 46 (bytesToBits demo_crunched_data),
        [0x48, 0x65, 0x6C, 0x6C, 0x6F], 0⟩ : DState).bits.length <
      (⟨bytesToBits demo_crunched_data, [], 0⟩ : DState).bits.length :=
  C10_termination.1 256 ⟨bytesToBits demo_crunched_data, [], 0⟩
    ⟨List.drop 46 (bytesToBits demo_crunched_data),
      [0x48, 0x65, 0x6C, 0x6C, 0x6F], 0⟩ (by decide) (by decide)
